import Mathlib

/-!
Verification of the tabu-search graph-coloring routine `tabucol`.

The Python source (`tabucol.py`) is shallowly embedded below.  Randomness is
modelled by an explicit stream `Rng : Nat → Nat`: the `i`-th call to
`randrange(0, m)` returns `rng i % m` when `m > 0` and raises `ValueError`
(modelled by `PyResult.exn`) when `m = 0`, exactly as CPython does.
Python dictionaries keyed by conflict counts are modelled as functions
`Nat → Option Int`; the node-indexed solution dictionary (whose key set is
always `[0, n)`) is modelled as a `List Nat` of colors.  The deque `tabu`
is a `List` whose head is the oldest entry.
-/

/-- A stream of raw random draws; draw `t` feeds the `t`-th `randrange` call. -/
abbrev Rng := Nat → Nat

/-- The `aspiration_level` dictionary: conflict level ↦ stored bound. -/
abbrev Asp := Nat → Option Int

/-- Result of running a piece of Python code: a value, or a raised exception. -/
inductive PyResult (α : Type) where
  | ok : α → PyResult α
  | exn : String → PyResult α
deriving Repr, DecidableEq

/-- Matrix access `graph[i][j]` (out-of-range reads default to `0`; the
claims only concern well-formed square matrices). -/
def entry (graph : List (List Int)) (i j : Nat) : Int :=
  (graph.getD i []).getD j 0

/-- The list of conflicting pairs `(i, j)`, `i < j`, scanned in the same
order as the nested loops at lines 27-33 of `tabucol.py`: adjacent and
equally colored. -/
def conflictPairs (graph : List (List Int)) (sol : List Nat) : List (Nat × Nat) :=
  ((List.range graph.length).map (fun i =>
    ((List.range graph.length).filter
      (fun j => decide (i < j) && decide (0 < entry graph i j) &&
        (sol.getD i 0 == sol.getD j 0))).map (fun j => (i, j)))).flatten

/-- `conflict_count`: the number of adjacent same-colored pairs `(i,j)`, `i<j`. -/
def conflictCount (graph : List (List Int)) (sol : List Nat) : Nat :=
  (conflictPairs graph sol).length

/-- `move_candidates`: every node touching at least one conflicting edge
(the Python builds a `set`; we model its iteration order as ascending). -/
def moveCandidates (graph : List (List Int)) (sol : List Nat) : List Nat :=
  (List.range graph.length).filter
    (fun v => (conflictPairs graph sol).any (fun p => p.1 == v || p.2 == v))

/-- Store `z ↦ v` in the aspiration dictionary. -/
def aspSet (asp : Asp) (z : Nat) (v : Int) : Asp :=
  fun z' => if z' = z then some v else asp z'

/-- Lines 47-50: `colors[randrange(0, k-1)]`, replaced by `colors[-1] = k-1`
when the draw collides with the current color.  `draw` is the already
reduced sample in `[0, k-1)`. -/
def pickColor (k cur draw : Nat) : Nat :=
  if cur = draw then k - 1 else draw

/-- Lines 61-78: the tabu/aspiration acceptance decision for one sampled
move.  Returns the (possibly updated) tabu list and aspiration table and
whether the inner `for` loop `break`s (`true`) or falls through to the next
rep (`false`). -/
def acceptance (cc nc node newColor : Nat) (tabu : List (Nat × Nat)) (asp : Asp) :
    List (Nat × Nat) × Asp × Bool :=
  if nc < cc then
    let aspCur : Int := (asp cc).getD ((cc : Int) - 1)
    let asp1 := if (asp cc).isSome then asp else aspSet asp cc ((cc : Int) - 1)
    if (nc : Int) ≤ aspCur then
      (if (node, newColor) ∈ tabu then tabu.erase (node, newColor) else tabu,
       aspSet asp1 cc ((nc : Int) - 1), true)
    else
      (tabu, asp1, if (node, newColor) ∈ tabu then false else true)
  else (tabu, asp, false)

/-- One sampled attempt of the inner `for r in range(reps)` loop
(lines 43-78): pick a conflicted node, pick a different color, clone and
recolor the solution, recount conflicts, and run the acceptance logic. -/
structure Attempt where
  node : Nat
  newColor : Nat
  newSol : List Nat
  newConflicts : Nat
  tabu : List (Nat × Nat)
  asp : Asp
  t : Nat
  accepted : Bool

/-- One iteration of the inner sampling loop, consuming rng draws `t` and
`t+1`.  Raises `ValueError` when a `randrange` range is empty. -/
def attempt (graph : List (List Int)) (k : Nat) (sol : List Nat) (cc : Nat)
    (mc : List Nat) (tabu : List (Nat × Nat)) (asp : Asp) (rng : Rng) (t : Nat) :
    PyResult Attempt :=
  if mc.length = 0 then .exn "ValueError"
  else
    let node := mc.getD (rng t % mc.length) 0
    if k - 1 = 0 then .exn "ValueError"
    else
      let newColor := pickColor k (sol.getD node 0) (rng (t + 1) % (k - 1))
      let newSol := sol.set node newColor
      let nc := conflictCount graph newSol
      let acc := acceptance cc nc node newColor tabu asp
      .ok ⟨node, newColor, newSol, nc, acc.1, acc.2.1, t + 2, acc.2.2⟩

/-- The whole inner `for r in range(reps)` loop: runs attempts, stopping at
the first accepted one; otherwise the last sampled attempt is kept
(`new_solution`, `node`, `new_color` persist in Python scope).  Returns
`none` only when zero reps were run. -/
def runReps (graph : List (List Int)) (k : Nat) (sol : List Nat) (cc : Nat)
    (mc : List Nat) (rng : Rng) :
    Nat → List (Nat × Nat) → Asp → Nat → Option Attempt → PyResult (Option Attempt)
  | 0, _, _, _, last => .ok last
  | r + 1, tabu, asp, t, _ =>
    match attempt graph k sol cc mc tabu asp rng t with
    | .exn e => .exn e
    | .ok a =>
      if a.accepted then .ok (some a)
      else runReps graph k sol cc mc rng r a.tabu a.asp a.t (some a)

/-- Search state threaded through the outer `while` loop. -/
structure OuterSt where
  sol : List Nat
  tabu : List (Nat × Nat)
  asp : Asp
  t : Nat

/-- Lines 85-87: append the reverted move and evict the oldest entry when
the deque exceeds `tabu_size`. -/
def tabuPush (tabuSize : Nat) (tabu : List (Nat × Nat)) (mv : Nat × Nat) :
    List (Nat × Nat) :=
  let t1 := tabu ++ [mv]
  if tabuSize < t1.length then t1.drop 1 else t1

/-- Result of one body of the `while` loop: `converged` when the top-of-loop
conflict count is `0` (the `break` at line 38), otherwise the successor
state together with that nonzero conflict count. -/
inductive StepRes where
  | converged
  | next (st' : OuterSt) (cc : Nat)

/-- One body of the `while` loop (lines 23-93): evaluate conflicts, break on
zero, otherwise sample moves, push `(node, old color of node)` onto the tabu
deque, and install the new solution.  `NameError` models the unbound `node`
when `reps = 0`. -/
def outerStep (graph : List (List Int)) (k tabuSize reps : Nat) (rng : Rng)
    (st : OuterSt) : PyResult StepRes :=
  let cc := conflictCount graph st.sol
  if cc = 0 then .ok .converged
  else
    let mc := moveCandidates graph st.sol
    match runReps graph k st.sol cc mc rng reps st.tabu st.asp st.t none with
    | .exn e => .exn e
    | .ok none => .exn "NameError"
    | .ok (some a) =>
      .ok (.next ⟨a.newSol, tabuPush tabuSize a.tabu (a.node, st.sol.getD a.node 0),
        a.asp, a.t⟩ cc)

/-- The `while iterations < max_iterations` loop.  `fuel` is the number of
remaining iterations, `iters` the Python `iterations` counter, and the
`Option Nat` is the last value of the Python local `conflict_count`
(`none` when the loop body never ran, in which case the final read of
`conflict_count` raises `NameError`). -/
def runLoop (graph : List (List Int)) (k tabuSize reps : Nat) (rng : Rng) :
    Nat → Nat → OuterSt → Option Nat → PyResult (Option Nat × OuterSt × Nat)
  | 0, iters, st, lastCC => .ok (lastCC, st, iters)
  | fuel + 1, iters, st, _lastCC =>
    match outerStep graph k tabuSize reps rng st with
    | .exn e => .exn e
    | .ok .converged => .ok (some 0, st, iters)
    | .ok (.next st' cc) => runLoop graph k tabuSize reps rng fuel (iters + 1) st' (some cc)

/-- Lines 16-18: the initial random solution, one draw per node. -/
def initSol (n k : Nat) (rng : Rng) : PyResult (List Nat) :=
  if n = 0 then .ok []
  else if k = 0 then .exn "ValueError"
  else .ok ((List.range n).map fun i => rng i % k)

/-- The whole run up to (but excluding) the final success test: final
`conflict_count`, final state, and final `iterations` counter. -/
def tabucolTrace (graph : List (List Int)) (k tabuSize reps maxIter : Nat)
    (rng : Rng) : PyResult (Option Nat × OuterSt × Nat) :=
  match initSol graph.length k rng with
  | .exn e => .exn e
  | .ok sol0 =>
    runLoop graph k tabuSize reps rng maxIter 0 ⟨sol0, [], fun _ => none, graph.length⟩ none

/-- `tabucol` (lines 4-104): `ok (some sol)` is a returned coloring,
`ok none` is the `return None` failure, `exn` a raised exception. -/
def tabucol (graph : List (List Int)) (k tabuSize reps maxIter : Nat)
    (rng : Rng) : PyResult (Option (List Nat)) :=
  match tabucolTrace graph k tabuSize reps maxIter rng with
  | .exn e => .exn e
  | .ok (none, _, _) => .exn "NameError"
  | .ok (some cc, st, _) => if cc ≠ 0 then .ok none else .ok (some st.sol)

/-- Final `iterations` counter of a completed (non-raising) run. -/
def traceIters (r : PyResult (Option Nat × OuterSt × Nat)) : Option Nat :=
  match r with
  | .ok (_, _, it) => some it
  | .exn _ => none

/-- Final value of the `conflict_count` local of a completed run. -/
def traceCC (r : PyResult (Option Nat × OuterSt × Nat)) : Option (Option Nat) :=
  match r with
  | .ok (c, _, _) => some c
  | .exn _ => none

/-- Final `solution` of a completed run. -/
def traceFinalSol (r : PyResult (Option Nat × OuterSt × Nat)) : Option (List Nat) :=
  match r with
  | .ok (_, st, _) => some st.sol
  | .exn _ => none

/-- States reachable from `st0` by zero or more executed `while`-loop bodies. -/
inductive Reaches (graph : List (List Int)) (k tabuSize reps : Nat) (rng : Rng) :
    OuterSt → OuterSt → Prop
  | refl (st : OuterSt) : Reaches graph k tabuSize reps rng st st
  | step {st st' st'' : OuterSt} {cc : Nat}
      (h : outerStep graph k tabuSize reps rng st = .ok (.next st' cc))
      (h' : Reaches graph k tabuSize reps rng st' st'') :
      Reaches graph k tabuSize reps rng st st''

/-- `a` is a possible outcome of `attempt` at rng position `t` for some tabu
list and aspiration table. -/
def attemptAt (graph : List (List Int)) (k : Nat) (sol : List Nat) (cc : Nat)
    (mc : List Nat) (rng : Rng) (t : Nat) (a : Attempt) : Prop :=
  ∃ tb asp, attempt graph k sol cc mc tb asp rng t = .ok a

/-- The aspiration table `asp'` evolved from `asp` by the writes the code
performs: existing values only ever decrease, and a freshly created key `z`
never stores more than `z - 1`. -/
def aspLe (asp asp' : Asp) : Prop :=
  (∀ z v, asp z = some v → ∃ v', asp' z = some v' ∧ v' ≤ v) ∧
  (∀ z v', asp z = none → asp' z = some v' → v' ≤ (z : Int) - 1)

/-! ### Basic lemmas about the conflict evaluator -/

theorem mem_conflictPairs {graph : List (List Int)} {sol : List Nat} {i j : Nat} :
    (i, j) ∈ conflictPairs graph sol ↔
      i < j ∧ j < graph.length ∧ 0 < entry graph i j ∧ sol.getD i 0 = sol.getD j 0 := by
  simp only [conflictPairs, List.mem_flatten, List.mem_map]
  constructor
  · rintro ⟨l, ⟨i', hi', rfl⟩, hmem⟩
    simp only [List.mem_map, List.mem_filter, List.mem_range, Bool.and_eq_true,
      decide_eq_true_eq, beq_iff_eq, Prod.mk.injEq] at hmem
    obtain ⟨j', ⟨hj', ⟨hij', hadj⟩, hcol⟩, hii, hjj⟩ := hmem
    subst hii; subst hjj
    exact ⟨hij', hj', hadj, hcol⟩
  · rintro ⟨hij, hj, hadj, hcol⟩
    refine ⟨_, ⟨i, List.mem_range.2 (by omega), rfl⟩, ?_⟩
    simp only [List.mem_map, List.mem_filter, List.mem_range, Bool.and_eq_true,
      decide_eq_true_eq, beq_iff_eq, Prod.mk.injEq]
    exact ⟨j, ⟨hj, ⟨hij, hadj⟩, hcol⟩, trivial, rfl⟩

theorem conflictCount_eq_zero {graph : List (List Int)} {sol : List Nat} :
    conflictCount graph sol = 0 ↔
      ∀ i j, i < j → j < graph.length → 0 < entry graph i j →
        sol.getD i 0 ≠ sol.getD j 0 := by
  rw [conflictCount, List.length_eq_zero, List.eq_nil_iff_forall_not_mem]
  constructor
  · intro h i j hij hj hadj hcol
    exact h (i, j) (mem_conflictPairs.2 ⟨hij, hj, hadj, hcol⟩)
  · rintro h ⟨i, j⟩ hmem
    obtain ⟨hij, hj, hadj, hcol⟩ := mem_conflictPairs.1 hmem
    exact h i j hij hj hadj hcol

theorem moveCandidates_length_ne_zero {graph : List (List Int)} {sol : List Nat}
    (h : conflictCount graph sol ≠ 0) : (moveCandidates graph sol).length ≠ 0 := by
  have h1 : conflictPairs graph sol ≠ [] := by
    intro he
    exact h (by simp [conflictCount, he])
  obtain ⟨⟨i, j⟩, hp⟩ := List.exists_mem_of_ne_nil _ h1
  obtain ⟨hij, hj, hadj, hcol⟩ := mem_conflictPairs.1 hp
  have hmem : i ∈ moveCandidates graph sol := by
    simp only [moveCandidates, List.mem_filter, List.mem_range, List.any_eq_true]
    exact ⟨by omega, ⟨(i, j), hp, by simp⟩⟩
  intro hlen
  rw [List.length_eq_zero] at hlen
  rw [hlen] at hmem
  cases hmem

/-! ### The color substitution scheme -/

theorem pickColor_ne {k cur draw : Nat} (h : draw < k - 1) :
    pickColor k cur draw ≠ cur := by
  unfold pickColor
  split <;> omega

theorem pickColor_lt {k cur draw : Nat} (h : draw < k - 1) :
    pickColor k cur draw < k := by
  unfold pickColor
  split <;> omega

/-! ### Evolution of the aspiration table -/

theorem aspLe_refl (asp : Asp) : aspLe asp asp := by
  constructor
  · intro z v h
    exact ⟨v, h, le_refl v⟩
  · intro z v' h h'
    rw [h] at h'
    cases h'

theorem aspLe_trans {a b c : Asp} (h1 : aspLe a b) (h2 : aspLe b c) : aspLe a c := by
  constructor
  · intro z v hv
    obtain ⟨v1, hv1, hle1⟩ := h1.1 z v hv
    obtain ⟨v2, hv2, hle2⟩ := h2.1 z v1 hv1
    exact ⟨v2, hv2, le_trans hle2 hle1⟩
  · intro z v' hnone hc
    cases hb : b z with
    | none => exact h2.2 z v' hb hc
    | some v1 =>
      have h1b := h1.2 z v1 hnone hb
      obtain ⟨v2, hv2, hle⟩ := h2.1 z v1 hb
      injection hv2.symm.trans hc with h
      omega

theorem aspSet_self (asp : Asp) (z : Nat) (v : Int) : aspSet asp z v z = some v := by
  simp [aspSet]

theorem aspLe_aspSet_none {asp : Asp} {z : Nat} {v : Int}
    (hz : asp z = none) (hv : v ≤ (z : Int) - 1) : aspLe asp (aspSet asp z v) := by
  constructor
  · intro z' v' h
    refine ⟨v', ?_, le_refl _⟩
    rw [aspSet]
    split
    · next heq =>
      rw [heq] at h
      rw [h] at hz
      cases hz
    · exact h
  · intro z' v' hnone h
    rw [aspSet] at h
    split at h
    · next heq =>
      injection h with h'
      subst heq
      omega
    · rw [hnone] at h
      cases h

theorem aspLe_aspSet_some {asp : Asp} {z : Nat} {v v' : Int}
    (hz : asp z = some v) (hv : v' ≤ v) : aspLe asp (aspSet asp z v') := by
  constructor
  · intro z'' w h
    rw [aspSet]
    split
    · next heq =>
      subst heq
      rw [h] at hz
      injection hz with hz'
      exact ⟨v', rfl, by omega⟩
    · exact ⟨w, h, le_refl w⟩
  · intro z'' w hnone h
    rw [aspSet] at h
    split at h
    · next heq =>
      subst heq
      rw [hnone] at hz
      cases hz
    · rw [hnone] at h
      cases h

theorem acceptance_tabu_le (cc nc node newColor : Nat) (tabu : List (Nat × Nat))
    (asp : Asp) : ((acceptance cc nc node newColor tabu asp).1).length ≤ tabu.length := by
  simp only [acceptance]
  split
  · split
    · split
      · exact (List.erase_sublist _ _).length_le
      · exact le_refl _
    · exact le_refl _
  · exact le_refl _

theorem acceptance_aspLe (cc nc node newColor : Nat) (tabu : List (Nat × Nat))
    (asp : Asp) : aspLe asp (acceptance cc nc node newColor tabu asp).2.1 := by
  simp only [acceptance]
  split
  · next hlt =>
    cases h0 : asp cc with
    | some v0 =>
      simp only [h0, Option.isSome_some, Option.getD_some, if_true]
      split
      · next hle => exact aspLe_aspSet_some h0 (by omega)
      · exact aspLe_refl asp
    | none =>
      simp only [h0, Option.isSome_none, Option.getD_none, Bool.false_eq_true, if_false]
      split
      · next hle =>
        exact aspLe_trans (aspLe_aspSet_none h0 (le_refl _))
          (aspLe_aspSet_some (aspSet_self asp cc ((cc : Int) - 1)) (by omega))
      · exact aspLe_aspSet_none h0 (le_refl _)
  · exact aspLe_refl asp

/-! ### The sampled attempt and the inner rep loop -/

theorem attempt_ok_spec {graph : List (List Int)} {k : Nat} {sol : List Nat}
    {cc : Nat} {mc : List Nat} {tabu : List (Nat × Nat)} {asp : Asp} {rng : Rng}
    {t : Nat} {a : Attempt}
    (h : attempt graph k sol cc mc tabu asp rng t = .ok a) :
    2 ≤ k ∧ mc.length ≠ 0 ∧ a.t = t + 2 ∧
      a.newColor = pickColor k (sol.getD a.node 0) (rng (t + 1) % (k - 1)) ∧
      rng (t + 1) % (k - 1) < k - 1 ∧
      a.newColor < k ∧
      a.newSol = sol.set a.node a.newColor ∧
      a.newConflicts = conflictCount graph a.newSol ∧
      a.tabu.length ≤ tabu.length ∧ aspLe asp a.asp := by
  simp only [attempt] at h
  split at h
  · cases h
  · split at h
    · cases h
    · next hmc hk =>
      cases h
      have hdraw : rng (t + 1) % (k - 1) < k - 1 := Nat.mod_lt _ (by omega)
      exact ⟨by omega, hmc, rfl, rfl, hdraw, pickColor_lt hdraw, rfl, rfl,
        acceptance_tabu_le _ _ _ _ _ _, acceptance_aspLe _ _ _ _ _ _⟩

theorem attempt_ok_of (graph : List (List Int)) (k : Nat) (sol : List Nat)
    (cc : Nat) (mc : List Nat) (tabu : List (Nat × Nat)) (asp : Asp) (rng : Rng)
    (t : Nat) (hmc : mc.length ≠ 0) (hk : k - 1 ≠ 0) :
    ∃ a, attempt graph k sol cc mc tabu asp rng t = .ok a := by
  simp only [attempt, if_neg hmc, if_neg hk]
  exact ⟨_, rfl⟩

theorem runReps_ok_spec {graph : List (List Int)} {k : Nat} {sol : List Nat}
    {cc : Nat} {mc : List Nat} {rng : Rng} {reps : Nat} :
    ∀ {tabu : List (Nat × Nat)} {asp : Asp} {t : Nat} {last : Option Attempt}
      {a : Attempt},
      runReps graph k sol cc mc rng reps tabu asp t last = .ok (some a) →
      (∀ a', last = some a' →
        (∃ nd col, col < k ∧ a'.newSol = sol.set nd col) ∧
          a'.tabu.length ≤ tabu.length ∧ aspLe asp a'.asp) →
      (∃ nd col, col < k ∧ a.newSol = sol.set nd col) ∧
        a.tabu.length ≤ tabu.length ∧ aspLe asp a.asp := by
  induction reps with
  | zero =>
    intro tabu asp t last a h hlast
    simp only [runReps] at h
    injection h with h'
    exact hlast a h'
  | succ r ih =>
    intro tabu asp t last a h hlast
    cases hat : attempt graph k sol cc mc tabu asp rng t with
    | exn e =>
      simp only [runReps, hat] at h
      cases h
    | ok b =>
      simp only [runReps, hat] at h
      obtain ⟨hk2, -, -, -, hdraw, hcol, hset, -, htlen, hasp⟩ := attempt_ok_spec hat
      by_cases hacc : b.accepted = true
      · rw [if_pos hacc] at h
        injection h with h'
        injection h' with h''
        subst h''
        exact ⟨⟨b.node, b.newColor, hcol, hset⟩, htlen, hasp⟩
      · rw [if_neg hacc] at h
        have := ih h (by
          intro a' ha'
          injection ha' with ha''
          subst ha''
          exact ⟨⟨b.node, b.newColor, hcol, hset⟩, le_refl _, aspLe_refl _⟩)
        exact ⟨this.1, le_trans this.2.1 htlen, aspLe_trans hasp this.2.2⟩

theorem runReps_ok_of {graph : List (List Int)} {k : Nat} {sol : List Nat}
    {cc : Nat} {mc : List Nat} {rng : Rng}
    (hmc : mc.length ≠ 0) (hk : k - 1 ≠ 0) :
    ∀ {reps : Nat} (tabu : List (Nat × Nat)) (asp : Asp) (t : Nat)
      (last : Option Attempt), 1 ≤ reps ∨ last.isSome = true →
      ∃ a, runReps graph k sol cc mc rng reps tabu asp t last = .ok (some a) := by
  intro reps
  induction reps with
  | zero =>
    intro tabu asp t last h
    cases last with
    | none => simp at h
    | some b => exact ⟨b, rfl⟩
  | succ r ih =>
    intro tabu asp t last _h
    obtain ⟨b, hb⟩ := attempt_ok_of graph k sol cc mc tabu asp rng t hmc hk
    by_cases hacc : b.accepted = true
    · exact ⟨b, by simp only [runReps, hb, if_pos hacc]⟩
    · obtain ⟨a, ha⟩ := ih b.tabu b.asp b.t (some b) (Or.inr rfl)
      exact ⟨a, by simp only [runReps, hb, if_neg hacc]; exact ha⟩

/-! ### The tabu deque -/

theorem tabuPush_length_le {ts : Nat} {tabu : List (Nat × Nat)} {mv : Nat × Nat}
    (h : tabu.length ≤ ts) : (tabuPush ts tabu mv).length ≤ ts := by
  simp only [tabuPush]
  split
  · simp only [List.length_drop, List.length_append, List.length_singleton]
    omega
  · next hnot =>
    simp only [List.length_append, List.length_singleton] at hnot ⊢
    omega

theorem tabuPush_full {ts : Nat} {tabu : List (Nat × Nat)} (mv : Nat × Nat)
    (hts : 1 ≤ ts) (h : tabu.length = ts) :
    tabuPush ts tabu mv = tabu.drop 1 ++ [mv] := by
  simp only [tabuPush]
  rw [if_pos (by simp only [List.length_append, List.length_singleton]; omega)]
  exact List.drop_append_of_le_length (by omega)

theorem tabuPush_not_full {ts : Nat} {tabu : List (Nat × Nat)} (mv : Nat × Nat)
    (h : tabu.length < ts) : tabuPush ts tabu mv = tabu ++ [mv] := by
  simp only [tabuPush]
  rw [if_neg (by simp only [List.length_append, List.length_singleton]; omega)]

/-! ### One body of the while loop -/

theorem outerStep_converged {graph : List (List Int)} {k ts reps : Nat} {rng : Rng}
    {st : OuterSt} (h : outerStep graph k ts reps rng st = .ok .converged) :
    conflictCount graph st.sol = 0 := by
  by_cases hcc : conflictCount graph st.sol = 0
  · exact hcc
  · simp only [outerStep, if_neg hcc] at h
    cases hr : runReps graph k st.sol (conflictCount graph st.sol)
        (moveCandidates graph st.sol) rng reps st.tabu st.asp st.t none with
    | exn e =>
      rw [hr] at h
      cases h
    | ok o =>
      rw [hr] at h
      cases o with
      | none => cases h
      | some a =>
        injection h with h'
        cases h'

theorem outerStep_next_parts {graph : List (List Int)} {k ts reps : Nat} {rng : Rng}
    {st st' : OuterSt} {cc : Nat}
    (h : outerStep graph k ts reps rng st = .ok (.next st' cc)) :
    cc = conflictCount graph st.sol ∧ cc ≠ 0 ∧
      ∃ a, runReps graph k st.sol cc (moveCandidates graph st.sol) rng reps
          st.tabu st.asp st.t none = .ok (some a) ∧
        st' = ⟨a.newSol, tabuPush ts a.tabu (a.node, st.sol.getD a.node 0), a.asp, a.t⟩ := by
  by_cases hcc : conflictCount graph st.sol = 0
  · simp only [outerStep, if_pos hcc] at h
    injection h with h'
    cases h'
  · simp only [outerStep, if_neg hcc] at h
    cases hr : runReps graph k st.sol (conflictCount graph st.sol)
        (moveCandidates graph st.sol) rng reps st.tabu st.asp st.t none with
    | exn e =>
      rw [hr] at h
      cases h
    | ok o =>
      rw [hr] at h
      cases o with
      | none => cases h
      | some a =>
        injection h with h'
        injection h' with h1 h2
        subst h2
        exact ⟨rfl, hcc, a, hr, h1.symm⟩

theorem outerStep_next_facts {graph : List (List Int)} {k ts reps : Nat} {rng : Rng}
    {st st' : OuterSt} {cc : Nat}
    (h : outerStep graph k ts reps rng st = .ok (.next st' cc)) :
    cc = conflictCount graph st.sol ∧ cc ≠ 0 ∧
      (st.tabu.length ≤ ts → st'.tabu.length ≤ ts) ∧
      aspLe st.asp st'.asp ∧
      (∃ nd col, col < k ∧ st'.sol = st.sol.set nd col) := by
  obtain ⟨h1, h2, a, hr, hst⟩ := outerStep_next_parts h
  have hs := runReps_ok_spec hr (by intro a' ha'; cases ha')
  subst hst
  refine ⟨h1, h2, ?_, hs.2.2, hs.1⟩
  intro hb
  exact tabuPush_length_le (le_trans hs.2.1 hb)

/-! ### Reachability facts -/

theorem reaches_facts {graph : List (List Int)} {k ts reps : Nat} {rng : Rng}
    {st0 st : OuterSt} (h : Reaches graph k ts reps rng st0 st) :
    (st0.tabu.length ≤ ts → st.tabu.length ≤ ts) ∧ aspLe st0.asp st.asp := by
  induction h with
  | refl st => exact ⟨id, aspLe_refl _⟩
  | step hstep _ ih =>
    have hf := outerStep_next_facts hstep
    exact ⟨fun hb => ih.1 (hf.2.2.1 hb), aspLe_trans hf.2.2.2.1 ih.2⟩

/-! ### The while loop -/

theorem runLoop_exhaust {graph : List (List Int)} {k ts reps : Nat} {rng : Rng}
    {fuel : Nat} :
    ∀ {iters : Nat} {st : OuterSt} {lastCC : Option Nat} {c : Nat} {st' : OuterSt}
      {iters' : Nat},
      runLoop graph k ts reps rng fuel iters st lastCC = .ok (some c, st', iters') →
      c ≠ 0 → iters' = iters + fuel := by
  induction fuel with
  | zero =>
    intro iters st lastCC c st' iters' h _hc
    simp only [runLoop, PyResult.ok.injEq, Prod.mk.injEq] at h
    omega
  | succ n ih =>
    intro iters st lastCC c st' iters' h hc
    cases ho : outerStep graph k ts reps rng st with
    | exn e =>
      simp only [runLoop, ho] at h
      cases h
    | ok sr =>
      cases sr with
      | converged =>
        simp only [runLoop, ho, PyResult.ok.injEq, Prod.mk.injEq] at h
        obtain ⟨h1, -, -⟩ := h
        exact absurd h1.symm (by simpa using hc)
      | next st2 cc2 =>
        simp only [runLoop, ho] at h
        have := ih h hc
        omega

theorem runLoop_success_cc {graph : List (List Int)} {k ts reps : Nat} {rng : Rng}
    {fuel : Nat} :
    ∀ {iters : Nat} {st : OuterSt} {lastCC : Option Nat} {st' : OuterSt} {iters' : Nat},
      runLoop graph k ts reps rng fuel iters st lastCC = .ok (some 0, st', iters') →
      lastCC ≠ some 0 → conflictCount graph st'.sol = 0 := by
  induction fuel with
  | zero =>
    intro iters st lastCC st' iters' h hl
    simp only [runLoop, PyResult.ok.injEq, Prod.mk.injEq] at h
    exact absurd h.1 hl
  | succ n ih =>
    intro iters st lastCC st' iters' h hl
    cases ho : outerStep graph k ts reps rng st with
    | exn e =>
      simp only [runLoop, ho] at h
      cases h
    | ok sr =>
      cases sr with
      | converged =>
        simp only [runLoop, ho, PyResult.ok.injEq, Prod.mk.injEq] at h
        obtain ⟨-, h2, -⟩ := h
        subst h2
        exact outerStep_converged ho
      | next st2 cc2 =>
        simp only [runLoop, ho] at h
        have hcc2 : cc2 ≠ 0 := (outerStep_next_facts ho).2.1
        exact ih h (by intro hbad; injection hbad with hbad'; exact hcc2 hbad')

theorem runLoop_colors {graph : List (List Int)} {k ts reps : Nat} {rng : Rng}
    {fuel : Nat} :
    ∀ {iters : Nat} {st : OuterSt} {lastCC oc : Option Nat} {st' : OuterSt}
      {iters' : Nat},
      runLoop graph k ts reps rng fuel iters st lastCC = .ok (oc, st', iters') →
      (∀ c ∈ st.sol, c < k) → ∀ c ∈ st'.sol, c < k := by
  induction fuel with
  | zero =>
    intro iters st lastCC oc st' iters' h hcols
    simp only [runLoop, PyResult.ok.injEq, Prod.mk.injEq] at h
    obtain ⟨-, h2, -⟩ := h
    exact h2 ▸ hcols
  | succ n ih =>
    intro iters st lastCC oc st' iters' h hcols
    cases ho : outerStep graph k ts reps rng st with
    | exn e =>
      simp only [runLoop, ho] at h
      cases h
    | ok sr =>
      cases sr with
      | converged =>
        simp only [runLoop, ho, PyResult.ok.injEq, Prod.mk.injEq] at h
        obtain ⟨-, h2, -⟩ := h
        exact h2 ▸ hcols
      | next st2 cc2 =>
        simp only [runLoop, ho] at h
        refine ih h ?_
        obtain ⟨-, -, -, -, nd, col, hcol, hset⟩ := outerStep_next_facts ho
        rw [hset]
        intro c hc
        rcases List.mem_or_eq_of_mem_set hc with hmem | rfl
        · exact hcols c hmem
        · exact hcol

theorem runLoop_total {graph : List (List Int)} {k ts reps : Nat} {rng : Rng}
    (hk : 2 ≤ k) (hreps : 1 ≤ reps) {fuel : Nat} :
    ∀ {iters : Nat} {st : OuterSt} {lastCC : Option Nat},
      ∃ oc st' iters',
        runLoop graph k ts reps rng fuel iters st lastCC = .ok (oc, st', iters') ∧
          (1 ≤ fuel ∨ lastCC.isSome = true → oc.isSome = true) := by
  induction fuel with
  | zero =>
    intro iters st lastCC
    exact ⟨lastCC, st, iters, rfl, fun h => h.resolve_left (by omega)⟩
  | succ n ih =>
    intro iters st lastCC
    by_cases hcc : conflictCount graph st.sol = 0
    · have ho : outerStep graph k ts reps rng st = .ok .converged := by
        simp only [outerStep, if_pos hcc]
      exact ⟨some 0, st, iters, by simp only [runLoop, ho], fun _ => rfl⟩
    · have hmc := moveCandidates_length_ne_zero hcc
      have hk1 : k - 1 ≠ 0 := by omega
      obtain ⟨a, ha⟩ :
          ∃ a, runReps graph k st.sol (conflictCount graph st.sol)
            (moveCandidates graph st.sol) rng reps st.tabu st.asp st.t none =
              .ok (some a) :=
        runReps_ok_of hmc hk1 st.tabu st.asp st.t none (Or.inl hreps)
      have ho : outerStep graph k ts reps rng st =
          .ok (.next ⟨a.newSol, tabuPush ts a.tabu (a.node, st.sol.getD a.node 0),
            a.asp, a.t⟩ (conflictCount graph st.sol)) := by
        simp only [outerStep, if_neg hcc, ha]
      obtain ⟨oc, st', iters', hrun, hoc⟩ :
          ∃ oc st' iters',
            runLoop graph k ts reps rng n (iters + 1)
              ⟨a.newSol, tabuPush ts a.tabu (a.node, st.sol.getD a.node 0), a.asp, a.t⟩
              (some (conflictCount graph st.sol)) = .ok (oc, st', iters') ∧
              (1 ≤ n ∨ (some (conflictCount graph st.sol)).isSome = true →
                oc.isSome = true) := ih
      exact ⟨oc, st', iters', by simp only [runLoop, ho]; exact hrun,
        fun _ => hoc (Or.inr rfl)⟩

/-! ### Initialization -/

theorem initSol_colors {n k : Nat} {rng : Rng} {s : List Nat}
    (h : initSol n k rng = .ok s) : ∀ c ∈ s, c < k := by
  simp only [initSol] at h
  split at h
  · injection h with h'
    subst h'
    intro c hc
    cases hc
  · split at h
    · cases h
    · next hk =>
      injection h with h'
      subst h'
      intro c hc
      obtain ⟨i, -, rfl⟩ := List.mem_map.1 hc
      exact Nat.mod_lt _ (Nat.pos_of_ne_zero hk)

theorem initSol_ok {n k : Nat} {rng : Rng} (hk : k ≠ 0) :
    ∃ s, initSol n k rng = .ok s := by
  rw [initSol]
  by_cases hn : n = 0
  · rw [if_pos hn]
    exact ⟨_, rfl⟩
  · rw [if_neg hn, if_neg hk]
    exact ⟨_, rfl⟩

/-! ### Destructuring a completed run -/

theorem tabucolTrace_destruct {graph : List (List Int)} {k ts reps maxIter : Nat}
    {rng : Rng} {oc : Option Nat} {st : OuterSt} {it : Nat}
    (h : tabucolTrace graph k ts reps maxIter rng = .ok (oc, st, it)) :
    ∃ sol0, initSol graph.length k rng = .ok sol0 ∧
      runLoop graph k ts reps rng maxIter 0
        ⟨sol0, [], fun _ => none, graph.length⟩ none = .ok (oc, st, it) := by
  cases hi : initSol graph.length k rng with
  | exn e =>
    simp only [tabucolTrace, hi] at h
    cases h
  | ok s =>
    simp only [tabucolTrace, hi] at h
    exact ⟨s, rfl, h⟩

theorem tabucol_ok_cases {graph : List (List Int)} {k ts reps maxIter : Nat}
    {rng : Rng} {r : Option (List Nat)}
    (h : tabucol graph k ts reps maxIter rng = .ok r) :
    ∃ c st it, tabucolTrace graph k ts reps maxIter rng = .ok (some c, st, it) ∧
      ((c ≠ 0 ∧ r = none) ∨ (c = 0 ∧ r = some st.sol)) := by
  cases htr : tabucolTrace graph k ts reps maxIter rng with
  | exn e =>
    simp only [tabucol, htr] at h
    cases h
  | ok o =>
    obtain ⟨oc, st, it⟩ := o
    cases oc with
    | none =>
      simp only [tabucol, htr] at h
      cases h
    | some c =>
      simp only [tabucol, htr] at h
      by_cases hc : c = 0
      · rw [if_neg (by omega)] at h
        injection h with h'
        exact ⟨c, st, it, rfl, Or.inr ⟨hc, h'.symm⟩⟩
      · rw [if_pos hc] at h
        injection h with h'
        exact ⟨c, st, it, rfl, Or.inl ⟨hc, h'.symm⟩⟩

/-! ### Claim theorems -/

/-- C1: whenever `tabucol` returns a coloring (a non-`None` solution), that
coloring is proper — every adjacent pair `i < j` of nodes gets two distinct
colors — and every assigned color lies in `[0, k)`. -/
theorem tabucol_success_valid (graph : List (List Int)) (k ts reps maxIter : Nat)
    (rng : Rng) (sol : List Nat)
    (h : tabucol graph k ts reps maxIter rng = .ok (some sol)) :
    (∀ j, j < graph.length → ∀ i, i < j → 0 < entry graph i j →
      sol.getD i 0 ≠ sol.getD j 0) ∧ ∀ c ∈ sol, c < k := by
  obtain ⟨c, st, it, htr, hcase⟩ := tabucol_ok_cases h
  rcases hcase with ⟨-, hr⟩ | ⟨hc, hr⟩
  · cases hr
  · injection hr with hr'
    subst hc
    subst hr'
    obtain ⟨sol0, hinit, hrun⟩ := tabucolTrace_destruct htr
    have hcc : conflictCount graph st.sol = 0 :=
      runLoop_success_cc hrun (by intro hbad; cases hbad)
    have hcols : ∀ cl ∈ st.sol, cl < k :=
      runLoop_colors hrun (initSol_colors hinit)
    refine ⟨?_, hcols⟩
    intro j hj i hij hadj
    exact conflictCount_eq_zero.1 hcc i j hij hj hadj

/-- C1 witness: a concrete converging run. -/
theorem tabucol_success_valid_witness :
    tabucol [[0,1],[1,0]] 2 7 100 3 (fun u => u) = .ok (some [0,1]) ∧
      ((∀ j, j < ([[0,1],[1,0]] : List (List Int)).length → ∀ i, i < j →
        0 < entry [[0,1],[1,0]] i j →
          ([0,1] : List Nat).getD i 0 ≠ ([0,1] : List Nat).getD j 0) ∧
        ∀ c ∈ ([0,1] : List Nat), c < 2) :=
  ⟨rfl, tabucol_success_valid [[0,1],[1,0]] 2 7 100 3 (fun u => u) [0,1] rfl⟩

/-- C2: every run with `max_iterations ≥ 1` that returns the failure marker
`None` exits with the iteration counter equal to `max_iterations` and a
strictly positive final `conflict_count`. -/
theorem tabucol_exhausted_wellformed (graph : List (List Int))
    (k ts reps maxIter : Nat) (rng : Rng) (hmax : 1 ≤ maxIter)
    (hfail : tabucol graph k ts reps maxIter rng = .ok none) :
    traceIters (tabucolTrace graph k ts reps maxIter rng) = some maxIter ∧
      ∃ c, traceCC (tabucolTrace graph k ts reps maxIter rng) = some (some c) ∧
        0 < c := by
  obtain ⟨c, st, it, htr, hcase⟩ := tabucol_ok_cases hfail
  rcases hcase with ⟨hc, -⟩ | ⟨-, hr⟩
  · obtain ⟨sol0, hinit, hrun⟩ := tabucolTrace_destruct htr
    have hit : it = 0 + maxIter := runLoop_exhaust hrun hc
    rw [htr]
    refine ⟨by simp only [traceIters, Option.some.injEq]; omega, c,
      by simp only [traceCC], by omega⟩
  · cases hr

/-- C2 witness: a concrete exhausted run. -/
theorem tabucol_exhausted_wellformed_witness :
    1 ≤ 1 ∧ tabucol [[0,1],[1,0]] 2 7 100 1 (fun _ => 0) = .ok none ∧
      (traceIters (tabucolTrace [[0,1],[1,0]] 2 7 100 1 (fun _ => 0)) = some 1 ∧
        ∃ c, traceCC (tabucolTrace [[0,1],[1,0]] 2 7 100 1 (fun _ => 0)) =
          some (some c) ∧ 0 < c) :=
  ⟨by omega, rfl,
    tabucol_exhausted_wellformed [[0,1],[1,0]] 2 7 100 1 (fun _ => 0) (by omega) rfl⟩

/-- C3 counterexample: `k = 1` on the single-edge graph is domain-valid
(`k ≥ 1`, symmetric, loop-free, `tabu_size, reps, max_iterations ≥ 1`), yet
`tabucol` raises `ValueError` (from `randrange(0, 0)`) instead of returning
a solution or `None`. -/
theorem tabucol_k1_raises_cex :
    tabucol [[0,1],[1,0]] 1 7 50 5 (fun _ => 0) = .exn "ValueError" := rfl

/-- C3 (amended): for `k ≥ 2` (together with the other domain-validity
conditions) `tabucol` never raises: it returns either a coloring or `None`. -/
theorem tabucol_no_raise (graph : List (List Int)) (k ts reps maxIter : Nat)
    (rng : Rng)
    (hsym : ∀ j, j < graph.length → ∀ i, i < j → entry graph i j = entry graph j i)
    (hloop : ∀ i, i < graph.length → entry graph i i = 0)
    (hk : 2 ≤ k) (hts : 1 ≤ ts) (hreps : 1 ≤ reps) (hmax : 1 ≤ maxIter) :
    ∃ r, tabucol graph k ts reps maxIter rng = .ok r := by
  obtain ⟨sol0, hinit⟩ : ∃ s, initSol graph.length k rng = .ok s :=
    initSol_ok (by omega)
  obtain ⟨oc, st', it', hrun, hoc⟩ :
      ∃ oc st' it',
        runLoop graph k ts reps rng maxIter 0
          ⟨sol0, [], fun _ => none, graph.length⟩ none = .ok (oc, st', it') ∧
          (1 ≤ maxIter ∨ (none : Option Nat).isSome = true → oc.isSome = true) :=
    runLoop_total hk hreps
  obtain ⟨c, hc⟩ := Option.isSome_iff_exists.1 (hoc (Or.inl hmax))
  subst hc
  have htr : tabucolTrace graph k ts reps maxIter rng = .ok (some c, st', it') := by
    simp only [tabucolTrace, hinit]
    exact hrun
  by_cases hcz : c = 0
  · refine ⟨some st'.sol, ?_⟩
    simp only [tabucol, htr]
    rw [if_neg (by omega)]
  · refine ⟨none, ?_⟩
    simp only [tabucol, htr]
    rw [if_pos hcz]

/-- C3 witness for the amended theorem. -/
theorem tabucol_no_raise_witness :
    (∀ j, j < ([[0,1],[1,0]] : List (List Int)).length → ∀ i, i < j →
      entry [[0,1],[1,0]] i j = entry [[0,1],[1,0]] j i) ∧
      (∀ i, i < ([[0,1],[1,0]] : List (List Int)).length →
        entry [[0,1],[1,0]] i i = 0) ∧
      2 ≤ 2 ∧ 1 ≤ 7 ∧ 1 ≤ 100 ∧ 1 ≤ 1 ∧
      ∃ r, tabucol [[0,1],[1,0]] 2 7 100 1 (fun _ => 0) = .ok r :=
  ⟨by decide, by decide, by omega, by omega, by omega, by omega,
    tabucol_no_raise [[0,1],[1,0]] 2 7 100 1 (fun _ => 0) (by decide) (by decide)
      (by omega) (by omega) (by omega) (by omega)⟩

/-- C4: with `k = 1` on a graph with an edge the code raises `ValueError`
at `randrange(0, len(colors) - 1)` instead of returning the `Exhausted`
failure marker `None` that the specification requires. -/
theorem tabucol_k1_edge_raises :
    tabucol [[0,1],[1,0]] 1 7 100 10000 (fun _ => 1) = .exn "ValueError" := rfl

/-- C9: the success test reads the conflict count computed at the top of the
final iteration, not the conflict count of the newly installed solution:
with `max_iterations = 1` on the single-edge graph and the all-zero random
stream, `tabucol` returns `None` although the solution accepted in that
final iteration, `[1, 0]`, is a proper coloring (conflict count `0`), with
the iteration counter at `1`. -/
theorem tabucol_stale_verdict :
    tabucol [[0,1],[1,0]] 2 7 100 1 (fun _ => 0) = .ok none ∧
      traceFinalSol (tabucolTrace [[0,1],[1,0]] 2 7 100 1 (fun _ => 0)) =
        some [1,0] ∧
      conflictCount [[0,1],[1,0]] [1,0] = 0 ∧
      traceIters (tabucolTrace [[0,1],[1,0]] 2 7 100 1 (fun _ => 0)) = some 1 :=
  ⟨rfl, rfl, rfl, rfl⟩

/-- C5: in every run with `tabu_size ≥ 1`, starting from a bounded tabu list
every reachable state keeps `len(tabu) ≤ tabu_size`; an aspiration-override
removal never lengthens the list; and the push is FIFO — appending at the
back, and evicting exactly the oldest (front) entry when the deque is full. -/
theorem tabucol_tabu_bound (graph : List (List Int)) (k ts reps : Nat) (rng : Rng)
    (st0 st : OuterSt) (tabu : List (Nat × Nat)) (mv : Nat × Nat)
    (hts : 1 ≤ ts) (h0 : st0.tabu.length ≤ ts)
    (hr : Reaches graph k ts reps rng st0 st) :
    st.tabu.length ≤ ts ∧
      (tabu.erase mv).length ≤ tabu.length ∧
      (tabu.length = ts → tabuPush ts tabu mv = tabu.drop 1 ++ [mv]) ∧
      (tabu.length < ts → tabuPush ts tabu mv = tabu ++ [mv]) :=
  ⟨(reaches_facts hr).1 h0, (List.erase_sublist _ _).length_le,
    fun h => tabuPush_full mv hts h, fun h => tabuPush_not_full mv h⟩

/-- C5 witness. -/
theorem tabucol_tabu_bound_witness :
    1 ≤ 1 ∧ (OuterSt.mk [] [] (fun _ => none) 0).tabu.length ≤ 1 ∧
      Reaches [] 2 1 5 (fun _ => 0) ⟨[], [], fun _ => none, 0⟩
        ⟨[], [], fun _ => none, 0⟩ ∧
      ((OuterSt.mk [] [] (fun _ => none) 0).tabu.length ≤ 1 ∧
        (([((0:Nat),(0:Nat))] : List (Nat × Nat)).erase (1,1)).length ≤
          ([((0:Nat),(0:Nat))] : List (Nat × Nat)).length ∧
        (([((0:Nat),(0:Nat))] : List (Nat × Nat)).length = 1 →
          tabuPush 1 [((0:Nat),(0:Nat))] (1,1) =
            ([((0:Nat),(0:Nat))] : List (Nat × Nat)).drop 1 ++ [(1,1)]) ∧
        (([((0:Nat),(0:Nat))] : List (Nat × Nat)).length < 1 →
          tabuPush 1 [((0:Nat),(0:Nat))] (1,1) = [((0:Nat),(0:Nat))] ++ [(1,1)])) :=
  ⟨by omega, by decide, Reaches.refl _,
    tabucol_tabu_bound [] 2 1 5 (fun _ => 0) ⟨[], [], fun _ => none, 0⟩
      ⟨[], [], fun _ => none, 0⟩ [((0:Nat),(0:Nat))] (1,1) (by omega) (by decide)
      (Reaches.refl _)⟩

/-- C6: over one run the value stored in `aspiration_level[z]` never
increases — across reachable states of the while loop, and across a single
sampled attempt (where the writes happen): a key present with value `v` can
only move to some `v' ≤ v`, and a key first created during the run ends at
most at `z − 1` (the lazy `setdefault` default, possibly lowered further by
the guarded overwrite `new_conflicts − 1` which fires only when
`new_conflicts ≤` the stored value). -/
theorem aspiration_monotone (graph g2 : List (List Int)) (k k2 ts reps : Nat)
    (rng rng2 : Rng) (st0 st : OuterSt) (z : Nat) (v v' : Int)
    (sol : List Nat) (cc : Nat) (mc : List Nat) (tb : List (Nat × Nat))
    (ap : Asp) (t : Nat) (a : Attempt)
    (hr : Reaches graph k ts reps rng st0 st) :
    (st0.asp z = some v → st.asp z = some v' → v' ≤ v) ∧
      (st0.asp z = none → st.asp z = some v' → v' ≤ (z : Int) - 1) ∧
      (attempt g2 k2 sol cc mc tb ap rng2 t = .ok a →
        ap z = some v → a.asp z = some v' → v' ≤ v) ∧
      (attempt g2 k2 sol cc mc tb ap rng2 t = .ok a →
        ap z = none → a.asp z = some v' → v' ≤ (z : Int) - 1) := by
  have hrf := (reaches_facts hr).2
  refine ⟨?_, ?_, ?_, ?_⟩
  · intro h1 h2
    obtain ⟨w, hw, hle⟩ := hrf.1 z v h1
    rw [h2] at hw
    injection hw with hw'
    omega
  · intro h1 h2
    exact hrf.2 z v' h1 h2
  · intro hat h1 h2
    have hal := (attempt_ok_spec hat).2.2.2.2.2.2.2.2.2
    obtain ⟨w, hw, hle⟩ := hal.1 z v h1
    rw [h2] at hw
    injection hw with hw'
    omega
  · intro hat h1 h2
    have hal := (attempt_ok_spec hat).2.2.2.2.2.2.2.2.2
    exact hal.2 z v' h1 h2

/-- C6 witness: a concrete attempt that lazily initializes level `1` to `0`
and immediately lowers it to `-1`. -/
theorem aspiration_monotone_witness :
    Reaches [] 2 1 5 (fun _ => 0) ⟨[], [], fun _ => none, 0⟩
      ⟨[], [], fun _ => none, 0⟩ ∧
      (((fun _ => (none : Option Int)) 1 = some 0 →
          (fun _ => (none : Option Int)) 1 = some (-1) → (-1 : Int) ≤ 0) ∧
        ((fun _ => (none : Option Int)) 1 = none →
          (fun _ => (none : Option Int)) 1 = some (-1) → (-1 : Int) ≤ (1 : Int) - 1) ∧
        (attempt [[0,1],[1,0]] 2 [0,0] 1 [0,1] [] (fun _ => none) (fun _ => 0) 2 =
            .ok ⟨0, 1, [1,0], 0, [], aspSet (aspSet (fun _ => none) 1 0) 1 (-1), 4, true⟩ →
          (fun _ => (none : Option Int)) 1 = some 0 →
          (Attempt.mk 0 1 [1,0] 0 [] (aspSet (aspSet (fun _ => none) 1 0) 1 (-1)) 4
            true).asp 1 = some (-1) → (-1 : Int) ≤ 0) ∧
        (attempt [[0,1],[1,0]] 2 [0,0] 1 [0,1] [] (fun _ => none) (fun _ => 0) 2 =
            .ok ⟨0, 1, [1,0], 0, [], aspSet (aspSet (fun _ => none) 1 0) 1 (-1), 4, true⟩ →
          (fun _ => (none : Option Int)) 1 = none →
          (Attempt.mk 0 1 [1,0] 0 [] (aspSet (aspSet (fun _ => none) 1 0) 1 (-1)) 4
            true).asp 1 = some (-1) → (-1 : Int) ≤ (1 : Int) - 1)) :=
  ⟨Reaches.refl _,
    aspiration_monotone [] [[0,1],[1,0]] 2 2 1 5 (fun _ => 0) (fun _ => 0)
      ⟨[], [], fun _ => none, 0⟩ ⟨[], [], fun _ => none, 0⟩ 1 0 (-1)
      [0,0] 1 [0,1] [] (fun _ => none) 2
      ⟨0, 1, [1,0], 0, [], aspSet (aspSet (fun _ => none) 1 0) 1 (-1), 4, true⟩
      (Reaches.refl _)⟩

/-- C7: for `k ≥ 2`, the substitution scheme is a bijection from the `k−1`
possible draws onto the `k−1` colors other than the current one — the choice
never equals the current color, stays in `[0, k)`, is injective in the draw,
and reaches every non-current color; consequently each sampled attempt
recolors its node to something different from that node's current color. -/
theorem pickColor_uniform (k cur d d' c : Nat) (graph : List (List Int))
    (sol : List Nat) (cc : Nat) (mc : List Nat) (tb : List (Nat × Nat))
    (ap : Asp) (rng : Rng) (t : Nat) (a : Attempt)
    (hk : 2 ≤ k) (hcur : cur < k) (hd : d < k - 1) (hd' : d' < k - 1) (hc : c < k) :
    pickColor k cur d ≠ cur ∧
      pickColor k cur d < k ∧
      (pickColor k cur d = pickColor k cur d' → d = d') ∧
      (c ≠ cur → ∃ e, e < k - 1 ∧ pickColor k cur e = c) ∧
      (attempt graph k sol cc mc tb ap rng t = .ok a →
        a.newColor ≠ sol.getD a.node 0) := by
  refine ⟨pickColor_ne hd, pickColor_lt hd, ?_, ?_, ?_⟩
  · intro h
    unfold pickColor at h
    split at h <;> split at h <;> omega
  · intro hne
    by_cases hcl : c = k - 1
    · refine ⟨cur, by omega, ?_⟩
      unfold pickColor
      rw [if_pos rfl]
      omega
    · refine ⟨c, by omega, ?_⟩
      unfold pickColor
      rw [if_neg (fun hcc' => hne hcc'.symm)]
  · intro hat
    obtain ⟨-, -, -, hcol, hdraw, -, -, -, -, -⟩ := attempt_ok_spec hat
    rw [hcol]
    exact pickColor_ne hdraw

/-- C7 witness. -/
theorem pickColor_uniform_witness :
    2 ≤ 3 ∧ 1 < 3 ∧ 0 < 3 - 1 ∧ 1 < 3 - 1 ∧ 2 < 3 ∧
      (pickColor 3 1 0 ≠ 1 ∧
        pickColor 3 1 0 < 3 ∧
        (pickColor 3 1 0 = pickColor 3 1 1 → (0 : Nat) = 1) ∧
        ((2 : Nat) ≠ 1 → ∃ e, e < 3 - 1 ∧ pickColor 3 1 e = 2) ∧
        (attempt [[0,1],[1,0]] 3 [1,1] 1 [0,1] [] (fun _ => none) (fun _ => 0) 0 =
            .ok ⟨0, 0, [0,1], 0, [], aspSet (aspSet (fun _ => none) 1 0) 1 (-1), 2, true⟩ →
          (Attempt.mk 0 0 [0,1] 0 [] (aspSet (aspSet (fun _ => none) 1 0) 1 (-1)) 2
            true).newColor ≠ ([1,1] : List Nat).getD
              (Attempt.mk 0 0 [0,1] 0 [] (aspSet (aspSet (fun _ => none) 1 0) 1 (-1)) 2
                true).node 0)) :=
  ⟨by omega, by omega, by omega, by omega, by omega,
    pickColor_uniform 3 1 0 1 2 [[0,1],[1,0]] [1,1] 1 [0,1] [] (fun _ => none)
      (fun _ => 0) 0
      ⟨0, 0, [0,1], 0, [], aspSet (aspSet (fun _ => none) 1 0) 1 (-1), 2, true⟩
      (by omega) (by omega) (by omega) (by omega) (by omega)⟩

/-- Each attempt consumes exactly two random draws, so an unaccepted result
of the full rep loop must have been sampled at the final rep. -/
theorem runReps_fallback {graph : List (List Int)} {k : Nat} {sol : List Nat}
    {cc : Nat} {mc : List Nat} {rng : Rng} {reps : Nat} :
    ∀ {tb : List (Nat × Nat)} {ap : Asp} {t : Nat} {last : Option Attempt}
      {a : Attempt},
      1 ≤ reps →
      runReps graph k sol cc mc rng reps tb ap t last = .ok (some a) →
      a.accepted = false →
      a.t = t + 2 * reps ∧ attemptAt graph k sol cc mc rng (a.t - 2) a := by
  induction reps with
  | zero =>
    intro tb ap t last a h
    exact absurd h (by omega)
  | succ r ih =>
    intro tb ap t last a _h hrun hacc
    cases hat : attempt graph k sol cc mc tb ap rng t with
    | exn e =>
      simp only [runReps, hat] at hrun
      cases hrun
    | ok b =>
      simp only [runReps, hat] at hrun
      have hbt : b.t = t + 2 := (attempt_ok_spec hat).2.2.1
      by_cases hbacc : b.accepted = true
      · rw [if_pos hbacc] at hrun
        injection hrun with h1
        injection h1 with h2
        subst h2
        rw [hbacc] at hacc
        cases hacc
      · rw [if_neg hbacc] at hrun
        cases r with
        | zero =>
          simp only [runReps] at hrun
          injection hrun with h1
          injection h1 with h2
          subst h2
          refine ⟨by omega, ?_⟩
          have ht2 : b.t - 2 = t := by omega
          rw [ht2]
          exact ⟨tb, ap, hat⟩
        | succ r' =>
          have hres := ih (by omega) hrun hacc
          exact ⟨by omega, hres.2⟩

/-- C8: in an iteration with conflicts, sampling stops at the first attempt
the improvement/aspiration rules accept; when no attempt of the `reps`
sampled is accepted, the loop's outcome is exactly the last sampled attempt
(all `2·reps` draws were consumed and the result is the attempt begun at the
final pair of draws), even though it was rejected — non-improving or tabu. -/
theorem fallback_acceptance (graph : List (List Int)) (k : Nat) (sol : List Nat)
    (cc : Nat) (mc : List Nat) (rng : Rng) (reps : Nat)
    (tb0 : List (Nat × Nat)) (ap0 : Asp) (t0 : Nat) (last0 : Option Attempt)
    (a0 : Attempt) (tb : List (Nat × Nat)) (ap : Asp) (t : Nat) (a : Attempt)
    (hreps : 1 ≤ reps) :
    (attempt graph k sol cc mc tb0 ap0 rng t0 = .ok a0 → a0.accepted = true →
      runReps graph k sol cc mc rng reps tb0 ap0 t0 last0 = .ok (some a0)) ∧
      (runReps graph k sol cc mc rng reps tb ap t none = .ok (some a) →
        a.accepted = false →
        a.t = t + 2 * reps ∧ attemptAt graph k sol cc mc rng (a.t - 2) a) := by
  constructor
  · intro hat hacc
    obtain ⟨r, rfl⟩ : ∃ r, reps = r + 1 := ⟨reps - 1, by omega⟩
    simp only [runReps, hat, if_pos hacc]
  · intro hrun hacc
    exact runReps_fallback hreps hrun hacc

/-- C8 witness: a two-rep loop in which both sampled attempts are improving
but tabu without beating the aspiration bound, so the second (last) attempt
is the outcome; and an accepted first attempt stopping the loop at once. -/
theorem fallback_acceptance_witness :
    1 ≤ 2 ∧
      ((attempt [[0,1],[1,0]] 2 [0,0] 1 [0,1] [] (fun _ => none) (fun _ => 0) 0 =
          .ok ⟨0, 1, [1,0], 0, [], aspSet (aspSet (fun _ => none) 1 0) 1 (-1), 2, true⟩ →
        (Attempt.mk 0 1 [1,0] 0 [] (aspSet (aspSet (fun _ => none) 1 0) 1 (-1)) 2
          true).accepted = true →
        runReps [[0,1],[1,0]] 2 [0,0] 1 [0,1] (fun _ => 0) 2 [] (fun _ => none) 0
          none = .ok (some ⟨0, 1, [1,0], 0, [],
            aspSet (aspSet (fun _ => none) 1 0) 1 (-1), 2, true⟩)) ∧
      (runReps [[0,1],[1,0]] 2 [0,0] 1 [0,1] (fun _ => 0) 2
          [(0,1),(1,1)] (aspSet (fun _ => none) 1 (-1)) 0 none =
          .ok (some ⟨0, 1, [1,0], 0, [(0,1),(1,1)],
            aspSet (fun _ => none) 1 (-1), 4, false⟩) →
        (Attempt.mk 0 1 [1,0] 0 [(0,1),(1,1)] (aspSet (fun _ => none) 1 (-1)) 4
          false).accepted = false →
        (Attempt.mk 0 1 [1,0] 0 [(0,1),(1,1)] (aspSet (fun _ => none) 1 (-1)) 4
          false).t = 0 + 2 * 2 ∧
          attemptAt [[0,1],[1,0]] 2 [0,0] 1 [0,1] (fun _ => 0)
            ((Attempt.mk 0 1 [1,0] 0 [(0,1),(1,1)] (aspSet (fun _ => none) 1 (-1)) 4
              false).t - 2)
            ⟨0, 1, [1,0], 0, [(0,1),(1,1)], aspSet (fun _ => none) 1 (-1), 4, false⟩)) :=
  ⟨by omega,
    fallback_acceptance [[0,1],[1,0]] 2 [0,0] 1 [0,1] (fun _ => 0) 2
      [] (fun _ => none) 0 none
      ⟨0, 1, [1,0], 0, [], aspSet (aspSet (fun _ => none) 1 0) 1 (-1), 2, true⟩
      [(0,1),(1,1)] (aspSet (fun _ => none) 1 (-1)) 0
      ⟨0, 1, [1,0], 0, [(0,1),(1,1)], aspSet (fun _ => none) 1 (-1), 4, false⟩
      (by omega)⟩

/-! ### The run reads only the strict upper triangle -/

theorem conflictPairs_congr {g1 g2 : List (List Int)} {sol : List Nat}
    (hlen : g1.length = g2.length)
    (hup : ∀ j, j < g1.length → ∀ i, i < j → entry g1 i j = entry g2 i j) :
    conflictPairs g1 sol = conflictPairs g2 sol := by
  unfold conflictPairs
  rw [← hlen]
  congr 1
  apply List.map_congr_left
  intro i hi
  congr 1
  apply List.filter_congr
  intro j hj
  rw [List.mem_range] at hj
  by_cases hij : i < j
  · rw [hup j hj i hij]
  · simp [hij]

theorem conflictCount_congr {g1 g2 : List (List Int)} {sol : List Nat}
    (hlen : g1.length = g2.length)
    (hup : ∀ j, j < g1.length → ∀ i, i < j → entry g1 i j = entry g2 i j) :
    conflictCount g1 sol = conflictCount g2 sol := by
  unfold conflictCount
  rw [conflictPairs_congr hlen hup]

theorem moveCandidates_congr {g1 g2 : List (List Int)} {sol : List Nat}
    (hlen : g1.length = g2.length)
    (hup : ∀ j, j < g1.length → ∀ i, i < j → entry g1 i j = entry g2 i j) :
    moveCandidates g1 sol = moveCandidates g2 sol := by
  unfold moveCandidates
  rw [conflictPairs_congr hlen hup, hlen]

theorem attempt_congr {g1 g2 : List (List Int)}
    (hlen : g1.length = g2.length)
    (hup : ∀ j, j < g1.length → ∀ i, i < j → entry g1 i j = entry g2 i j)
    (k : Nat) (sol : List Nat) (cc : Nat) (mc : List Nat) (tb : List (Nat × Nat))
    (ap : Asp) (rng : Rng) (t : Nat) :
    attempt g1 k sol cc mc tb ap rng t = attempt g2 k sol cc mc tb ap rng t := by
  have hcc : ∀ s : List Nat, conflictCount g1 s = conflictCount g2 s :=
    fun _ => conflictCount_congr hlen hup
  simp only [attempt, hcc]

theorem runReps_congr {g1 g2 : List (List Int)}
    (hlen : g1.length = g2.length)
    (hup : ∀ j, j < g1.length → ∀ i, i < j → entry g1 i j = entry g2 i j)
    (k : Nat) (sol : List Nat) (cc : Nat) (mc : List Nat) (rng : Rng) :
    ∀ (reps : Nat) (tb : List (Nat × Nat)) (ap : Asp) (t : Nat)
      (last : Option Attempt),
      runReps g1 k sol cc mc rng reps tb ap t last =
        runReps g2 k sol cc mc rng reps tb ap t last := by
  intro reps
  induction reps with
  | zero =>
    intro tb ap t last
    rfl
  | succ r ih =>
    intro tb ap t last
    simp only [runReps]
    rw [← attempt_congr hlen hup k sol cc mc tb ap rng t]
    cases attempt g1 k sol cc mc tb ap rng t with
    | exn e => rfl
    | ok b =>
      dsimp only
      by_cases hacc : b.accepted = true
      · rw [if_pos hacc, if_pos hacc]
      · rw [if_neg hacc, if_neg hacc]
        exact ih b.tabu b.asp b.t (some b)

theorem outerStep_congr {g1 g2 : List (List Int)}
    (hlen : g1.length = g2.length)
    (hup : ∀ j, j < g1.length → ∀ i, i < j → entry g1 i j = entry g2 i j)
    (k ts reps : Nat) (rng : Rng) (st : OuterSt) :
    outerStep g1 k ts reps rng st = outerStep g2 k ts reps rng st := by
  simp only [outerStep, conflictCount_congr hlen hup, moveCandidates_congr hlen hup,
    runReps_congr hlen hup]

theorem runLoop_congr {g1 g2 : List (List Int)}
    (hlen : g1.length = g2.length)
    (hup : ∀ j, j < g1.length → ∀ i, i < j → entry g1 i j = entry g2 i j)
    (k ts reps : Nat) (rng : Rng) :
    ∀ (fuel iters : Nat) (st : OuterSt) (lastCC : Option Nat),
      runLoop g1 k ts reps rng fuel iters st lastCC =
        runLoop g2 k ts reps rng fuel iters st lastCC := by
  intro fuel
  induction fuel with
  | zero =>
    intro iters st lastCC
    rfl
  | succ n ih =>
    intro iters st lastCC
    simp only [runLoop]
    rw [← outerStep_congr hlen hup k ts reps rng st]
    cases outerStep g1 k ts reps rng st with
    | exn e => rfl
    | ok sr =>
      cases sr with
      | converged => rfl
      | next st2 cc2 => exact ih (iters + 1) st2 (some cc2)

theorem tabucolTrace_congr {g1 g2 : List (List Int)}
    (hlen : g1.length = g2.length)
    (hup : ∀ j, j < g1.length → ∀ i, i < j → entry g1 i j = entry g2 i j)
    (k ts reps maxIter : Nat) (rng : Rng) :
    tabucolTrace g1 k ts reps maxIter rng = tabucolTrace g2 k ts reps maxIter rng := by
  simp only [tabucolTrace]
  rw [← hlen]
  cases initSol g1.length k rng with
  | exn e => rfl
  | ok s => exact runLoop_congr hlen hup k ts reps rng maxIter 0 _ none

theorem tabucol_congr {g1 g2 : List (List Int)}
    (hlen : g1.length = g2.length)
    (hup : ∀ j, j < g1.length → ∀ i, i < j → entry g1 i j = entry g2 i j)
    (k ts reps maxIter : Nat) (rng : Rng) :
    tabucol g1 k ts reps maxIter rng = tabucol g2 k ts reps maxIter rng := by
  simp only [tabucol, tabucolTrace_congr hlen hup k ts reps maxIter rng]

/-- C10: the algorithm inspects only the strict upper triangle of the
adjacency matrix: two matrices of equal size agreeing on every entry
`graph[i][j]` with `i < j` yield, against the same random stream, identical
whole-run traces (final conflict count, state and iteration counter) and
identical final outcomes; the diagonal and lower triangle are never read. -/
theorem upper_triangle_determines (g1 g2 : List (List Int))
    (k ts reps maxIter : Nat) (rng : Rng)
    (hlen : g1.length = g2.length)
    (hup : ∀ j, j < g1.length → ∀ i, i < j → entry g1 i j = entry g2 i j) :
    tabucolTrace g1 k ts reps maxIter rng = tabucolTrace g2 k ts reps maxIter rng ∧
      tabucol g1 k ts reps maxIter rng = tabucol g2 k ts reps maxIter rng :=
  ⟨tabucolTrace_congr hlen hup k ts reps maxIter rng,
    tabucol_congr hlen hup k ts reps maxIter rng⟩

/-- C10 witness: two matrices sharing the upper triangle but with different
diagonals and lower triangles. -/
theorem upper_triangle_determines_witness :
    ([[0,1],[1,0]] : List (List Int)).length = ([[5,1],[0,7]] : List (List Int)).length ∧
      (∀ j, j < ([[0,1],[1,0]] : List (List Int)).length → ∀ i, i < j →
        entry [[0,1],[1,0]] i j = entry [[5,1],[0,7]] i j) ∧
      (tabucolTrace [[0,1],[1,0]] 2 7 100 1 (fun u => u + 1) =
          tabucolTrace [[5,1],[0,7]] 2 7 100 1 (fun u => u + 1) ∧
        tabucol [[0,1],[1,0]] 2 7 100 1 (fun u => u + 1) =
          tabucol [[5,1],[0,7]] 2 7 100 1 (fun u => u + 1)) :=
  ⟨by decide, by decide,
    upper_triangle_determines [[0,1],[1,0]] [[5,1],[0,7]] 2 7 100 1 (fun u => u + 1)
      (by decide) (by decide)⟩
